import Mathlib

/-!
Verification of the skip-list container `jump_list` (src/include/jump_list.h).

The C++ container is a multi-level linked structure.  We embed it shallowly:
a container state records the level-0 chain of nodes in order, together with
each node's sampled level, plus the `level` and `size_` fields of the class.
The per-level forward chains of the pointer graph are recovered from this
state: the chain at level `i` consists of exactly the nodes whose sampled
level is at least `i`, in level-0 order (this is how `insert` splices a node
into levels `0..newLevel` and how `erase` unsplices it from every level it
occupies; backward pointers and the header's tail cache carry no further
information about the element sequence).  A traversal position ("current"
node) is represented by the suffix of the chain strictly after it, the header
being the full chain.  Iterators are represented by the value they reference
(`none` is the `end()` sentinel); in a container whose chain is strictly
ascending, distinct nodes hold distinct values, so value equality of
iterators coincides with node-pointer equality.  The comparator is an
explicit boolean function `cmp`, and the random source is an explicit stream
of draws `Nat → Bool` (`true` models a draw below the probability `P`).
-/

namespace JumpListSpec

/-- Models `jump_list::MAX_LEVEL = 32` (jump_list.h line 41). -/
def MAX_LEVEL : Nat := 32

/-- Loop of `jump_list::randomLevel` (jump_list.h lines 106-112):
`while (draw < P && lvl < MAX_LEVEL) lvl++`.  A draw below `P` is modelled by
`draws lvl = true`.  The loop body runs at most `MAX_LEVEL` times because the
guard requires `lvl < MAX_LEVEL`, so fuel `MAX_LEVEL` never cuts it short. -/
def randomLevelAux (draws : Nat → Bool) : Nat → Nat → Nat
  | 0, lvl => lvl
  | fuel + 1, lvl =>
    if draws lvl && decide (lvl < MAX_LEVEL) then randomLevelAux draws fuel (lvl + 1)
    else lvl

/-- Models `jump_list::randomLevel` (jump_list.h lines 106-112). -/
def randomLevel (draws : Nat → Bool) : Nat :=
  randomLevelAux draws MAX_LEVEL 0

/-- A node of the level-0 chain: its stored value and its sampled level
(the size of its forward array minus one). -/
abbrev Entry (α : Type) := α × Nat

/-- State of a `jump_list` object: the level-0 chain in order (with each
node's level), the `level` field and the `size_` field
(jump_list.h lines 93-95). -/
structure jump_list (α : Type) where
  elems : List (Entry α)
  level : Nat
  size_ : Nat
deriving Repr, DecidableEq

/-- A default-constructed container: empty chain, `level = 0`, `size_ = 0`
(jump_list.h lines 384-387). -/
def emptyJL (α : Type) : jump_list α := ⟨[], 0, 0⟩

/-- One step of `current->forward[i]` from a position given as the suffix
after the current node: the first node of the suffix whose level is at least
`i`, together with the suffix after it.  Returns `none` when
`current->forward[i] == nullptr`. -/
def seek (i : Nat) : List (Entry α) → Option (Entry α × List (Entry α))
  | [] => none
  | e :: rest => if i ≤ e.2 then some (e, rest) else seek i rest

/-- The inner loop of the traversal at one level (for example jump_list.h
lines 633-635): `while (current->forward[i] && comp(current->forward[i]->data,
value)) current = current->forward[i];`.  `pred` is the continue condition on
the next node's data.  Each iteration moves past at least one list element,
so fuel equal to the chain length never cuts the loop short. -/
def walkLevel (pred : α → Bool) (i : Nat) : Nat → List (Entry α) → List (Entry α)
  | 0, s => s
  | fuel + 1, s =>
    match seek i s with
    | none => s
    | some (e, rest) => if pred e.1 then walkLevel pred i fuel rest else s

/-- The outer loop of the traversal (for example jump_list.h lines 632-637):
`for (int i = level; i >= 0; --i) { walk at level i }`.  The result is the
position reached at level 0, i.e. `update[0]`. -/
def descend (pred : α → Bool) (fuel : Nat) : Nat → List (Entry α) → List (Entry α)
  | 0, s => walkLevel pred 0 fuel s
  | i + 1, s => descend pred fuel i (walkLevel pred (i + 1) fuel s)

/-- The full search of the traversal engine, from the header at the
container's current top level down to level 0. -/
def traverse (pred : α → Bool) (st : jump_list α) : List (Entry α) :=
  descend pred st.elems.length st.level st.elems

/-- The part of `insert` after the duplicate check (jump_list.h lines
646-670): sample a level, raise the list level if needed (this happens
before node creation in the source), create the node — which can fail — and
splice it at the traversal position, which is `length elems - length t`
nodes from the front.  On failure the level change has already happened and
is observed by the caller. -/
def insertNew (st : jump_list α) (value : α)
    (draws : Nat → Bool) (allocOK : Bool) (t : List (Entry α)) :
    jump_list α × Option (Option α × Bool) :=
  let newLevel := randomLevel draws
  let level1 := if st.level < newLevel then newLevel else st.level
  if allocOK then
    let k := st.elems.length - t.length
    (⟨st.elems.take k ++ (value, newLevel) :: st.elems.drop k,
      level1, st.size_ + 1⟩, some (some value, true))
  else
    (⟨st.elems, level1, st.size_⟩, none)

/-- Models `jump_list::insert(const T&)` (jump_list.h lines 627-671).
`draws` feeds `randomLevel`; `allocOK = false` makes `createNode`
(lines 121-130) fail, in which case the exception propagates: the second
component is `none` and the first is the container state the caller observes
after the failure.  On success the second component is
`some (iterator, inserted)` with the iterator given by the value it
references (`none` would be `end()`, which insert never returns). -/
def insert (cmp : α → α → Bool) (st : jump_list α) (value : α)
    (draws : Nat → Bool) (allocOK : Bool) :
    jump_list α × Option (Option α × Bool) :=
  let t := traverse (fun x => cmp x value) st
  match t.head? with
  | some e =>
    if !cmp e.1 value && !cmp value e.1 then
      (st, some (some e.1, false))
    else
      insertNew st value draws allocOK t
  | none => insertNew st value draws allocOK t

/-- Models `jump_list::find` (jump_list.h lines 920-933): traverse with the
strictly-before condition, step to `forward[0]`, and check comparator
equivalence. -/
def find (cmp : α → α → Bool) (st : jump_list α) (key : α) : Option α :=
  match (traverse (fun x => cmp x key) st).head? with
  | some e => if !cmp e.1 key && !cmp key e.1 then some e.1 else none
  | none => none

/-- Models `jump_list::lower_bound` (jump_list.h lines 1005-1013): traverse
with the strictly-before condition and return `forward[0]` of the final
position, with no equivalence check. -/
def lower_bound (cmp : α → α → Bool) (st : jump_list α) (key : α) : Option α :=
  ((traverse (fun x => cmp x key) st).head?).map (fun e => e.1)

/-- Models `jump_list::upper_bound` (jump_list.h lines 1036-1044): the same
traversal with the not-after condition `!comp(key, forward->data)`. -/
def upper_bound (cmp : α → α → Bool) (st : jump_list α) (key : α) : Option α :=
  ((traverse (fun x => !cmp key x) st).head?).map (fun e => e.1)

/-- Models `operator++` of the iterators (jump_list.h lines 221-224):
`node = node->forward[0]`.  The iterator carries only the value of its node,
so the node is re-located by the traversal; on a strictly ascending chain
this is the unique node holding that value.  Incrementing `end()` is
undefined behaviour in the source; here it stays `end()`. -/
def iterNext (cmp : α → α → Bool) (st : jump_list α) (it : Option α) : Option α :=
  match it with
  | none => none
  | some v =>
    let t := traverse (fun x => cmp x v) st
    match t.head? with
    | some e =>
      if !cmp e.1 v && !cmp v e.1 then (t.tail.head?).map (fun f => f.1) else none
    | none => none

/-- Models `jump_list::equal_range` (jump_list.h lines 971-979):
`find` the key; if absent return `(end(), end())`, else return the found
iterator and its increment. -/
def equal_range (cmp : α → α → Bool) (st : jump_list α) (key : α) :
    Option α × Option α :=
  match find cmp st key with
  | none => (none, none)
  | some w => (some w, iterNext cmp st (some w))

/-- The level-shrinking loop of `erase` (jump_list.h lines 851-853):
`while (level > 0 && !header->forward[level]) --level`.  In this state,
`header->forward[l]` is null exactly when no node has level at least `l`. -/
def shrinkLevel (elems : List (Entry α)) : Nat → Nat
  | 0 => 0
  | l + 1 => if elems.any (fun e => decide (l + 1 ≤ e.2)) then l + 1 else shrinkLevel elems l

/-- Models `jump_list::erase(const_iterator pos)` (jump_list.h lines
803-857).  The iterator argument is the value it references (`none` is
`end()`).  Returns the new state and the returned iterator. -/
def erasePos (cmp : α → α → Bool) (st : jump_list α) (pos : Option α) :
    jump_list α × Option α :=
  match pos with
  | none => (st, none)
  | some value =>
    let t := traverse (fun x => cmp x value) st
    match t.head? with
    | none => (st, none)
    | some e =>
      if cmp e.1 value || cmp value e.1 then (st, none)
      else
        let k := st.elems.length - t.length
        let elems1 := st.elems.take k ++ st.elems.drop (k + 1)
        (⟨elems1, shrinkLevel elems1 st.level, st.size_ - 1⟩,
         (t.tail.head?).map (fun f => f.1))

/-- Models `jump_list::erase(const T& key)` (jump_list.h lines 881-888):
`find` the key and erase at that iterator, returning the number erased. -/
def eraseKey (cmp : α → α → Bool) (st : jump_list α) (key : α) :
    jump_list α × Nat :=
  match find cmp st key with
  | some w => ((erasePos cmp st (some w)).1, 1)
  | none => (st, 0)

/-- Loop of `jump_list::erase(const_iterator first, const_iterator last)`
(jump_list.h lines 865-874): `result = end(); while (first != last) { next =
first; ++next; result = erase(first); first = next; } return result`.  Each
iteration erases one element, so fuel `size_ + 1` never cuts the loop short
on a valid container. -/
def eraseRangeAux [DecidableEq α] (cmp : α → α → Bool) :
    Nat → jump_list α → Option α → Option α → Option α → jump_list α × Option α
  | 0, st, _, _, result => (st, result)
  | fuel + 1, st, first, last, result =>
    if first = last then (st, result)
    else
      let next := iterNext cmp st first
      let r := erasePos cmp st first
      eraseRangeAux cmp fuel r.1 next last r.2

/-- Models `jump_list::erase(const_iterator, const_iterator)`
(jump_list.h lines 865-874). -/
def eraseRange [DecidableEq α] (cmp : α → α → Bool) (st : jump_list α)
    (first last : Option α) : jump_list α × Option α :=
  eraseRangeAux cmp (st.size_ + 1) st first last none

/-- Models `jump_list::clear` (jump_list.h lines 605-618): destroy every
node, reset the header's links, `level = 0`, `size_ = 0`. -/
def clear (st : jump_list α) : jump_list α :=
  let _ := st
  ⟨[], 0, 0⟩

/-- A public mutating operation, for stating the container invariant over
arbitrary operation sequences: an insertion (with its stream of level draws
and the success of its allocation), an erase by position, an erase by key, or
a clear. -/
inductive Op (α : Type) where
  | ins (v : α) (draws : Nat → Bool) (allocOK : Bool)
  | delPos (pos : Option α)
  | delKey (k : α)
  | clr

/-- Run one public operation, keeping the resulting container state. -/
def runOp (cmp : α → α → Bool) (st : jump_list α) : Op α → jump_list α
  | .ins v draws allocOK => (insert cmp st v draws allocOK).1
  | .delPos pos => (erasePos cmp st pos).1
  | .delKey k => (eraseKey cmp st k).1
  | .clr => clear st

/-- Run a sequence of public operations starting from the empty container. -/
def runOps (cmp : α → α → Bool) (ops : List (Op α)) : jump_list α :=
  ops.foldl (runOp cmp) (emptyJL α)

/-- The iteration sequence from `begin()` to `end()`: the values of the
level-0 chain in order. -/
def toSeq (st : jump_list α) : List α := st.elems.map (fun e => e.1)

/-- Transitivity of the comparator, part of the strict-weak-order assumption
the container documents for `Compare`. -/
def CmpTrans (cmp : α → α → Bool) : Prop :=
  ∀ a b c, cmp a b = true → cmp b c = true → cmp a c = true

/-- Irreflexivity of the comparator, part of the strict-weak-order
assumption. -/
def CmpIrrefl (cmp : α → α → Bool) : Prop :=
  ∀ a, cmp a a = false

/-- Transitivity of comparator-equivalence (neither argument ordered before
the other), the remaining part of the strict-weak-order assumption. -/
def EquivTrans (cmp : α → α → Bool) : Prop :=
  ∀ a b c, cmp a b = false → cmp b a = false → cmp b c = false → cmp c b = false →
    cmp a c = false ∧ cmp c a = false

/-- The level-0 chain is strictly ascending under the comparator. -/
abbrev Sorted (cmp : α → α → Bool) (st : jump_list α) : Prop :=
  st.elems.Pairwise (fun e f => cmp e.1 f.1 = true)

/-- A valid container state: strictly ascending chain and a `size_` field
that counts the nodes of the chain (spec section 3, invariants 1 and 5). -/
abbrev Inv (cmp : α → α → Bool) (st : jump_list α) : Prop :=
  Sorted cmp st ∧ st.size_ = st.elems.length

/-- Whether some stored element is comparator-equivalent to `v`. -/
def containsEquiv (cmp : α → α → Bool) (st : jump_list α) (v : α) : Bool :=
  st.elems.any (fun e => !cmp e.1 v && !cmp v e.1)

/-- The second half of invariant 3 of spec section 3: the `level` field is
minimal, i.e. it is zero or some node occupies it.  (`header.forward[i]` is
null for `i > level` exactly when every node's level is at most `level`.) -/
def levelMinimal (st : jump_list α) : Bool :=
  decide (st.level = 0) || st.elems.any (fun e => decide (st.level ≤ e.2))

/-- Models `std::equal(lhs.begin(), lhs.end(), rhs.begin())` as used by
`operator==` (jump_list.h line 1139): walk the first range, comparing with
the element equality `beq`.  The three-iterator form never reads past a
shorter second range there because it runs only when the sizes match; the
second clause is therefore unreachable in `jlEq`. -/
def stdEqual (beq : α → α → Bool) : List α → List α → Bool
  | [], _ => true
  | _ :: _, [] => false
  | a :: as, b :: bs => beq a b && stdEqual beq as bs

/-- Models `operator==` on containers (jump_list.h lines 1136-1140):
`lhs.size() == rhs.size() && std::equal(lhs.begin(), lhs.end(),
rhs.begin())`. -/
def jlEq (beq : α → α → Bool) (lhs rhs : jump_list α) : Bool :=
  decide (lhs.size_ = rhs.size_) && stdEqual beq (toSeq lhs) (toSeq rhs)

/-- Models `std::lexicographical_compare` over the two iteration ranges, as
used by `operator<` (jump_list.h line 1163), with the element order `lt`. -/
def lexCompare (lt : α → α → Bool) : List α → List α → Bool
  | _, [] => false
  | [], _ :: _ => true
  | a :: as, b :: bs => if lt a b then true else if lt b a then false else lexCompare lt as bs

/-- Models `operator<` on containers (jump_list.h lines 1160-1164). -/
def jlLt (lt : α → α → Bool) (lhs rhs : jump_list α) : Bool :=
  lexCompare lt (toSeq lhs) (toSeq rhs)

/-- The default comparator `std::less<int>` at the element type used by the
concrete scenarios of the spec. -/
def cmpInt (a b : Int) : Bool := decide (a < b)

/-- A draw stream whose every draw fails: `randomLevel` returns 0. -/
def noDraws (n : Nat) : Bool := let _ := n; false

/-- A draw stream whose first draw succeeds and the rest fail:
`randomLevel` returns 1. -/
def oneDraw (n : Nat) : Bool := decide (n = 0)

/-- The container `{1,3,5,7,9}` of the concrete bound scenarios, built by
inserting each value. -/
def sampleOdd : jump_list Int :=
  runOps cmpInt
    [.ins 1 noDraws true, .ins 3 noDraws true, .ins 5 noDraws true,
     .ins 7 noDraws true, .ins 9 noDraws true]

/-- The container `{1,2,3}` of the comparison scenarios. -/
def sample123 : jump_list Int :=
  runOps cmpInt [.ins 1 noDraws true, .ins 2 noDraws true, .ins 3 noDraws true]

/-- The container `{1,2,4}` of the comparison scenarios. -/
def sample124 : jump_list Int :=
  runOps cmpInt [.ins 1 noDraws true, .ins 2 noDraws true, .ins 4 noDraws true]

/-- The container `{1,2,3,4}` of the comparison scenarios. -/
def sample1234 : jump_list Int :=
  runOps cmpInt
    [.ins 1 noDraws true, .ins 2 noDraws true, .ins 3 noDraws true,
     .ins 4 noDraws true]

/-- The comparator by absolute value, under which distinct values can be
comparator-equivalent. -/
def cmpAbs (a b : Int) : Bool := decide (a.natAbs < b.natAbs)

/-- A one-element container holding `1`, built by insertion under the
absolute-value comparator. -/
def sAbsPos : jump_list Int := runOps cmpAbs [.ins 1 noDraws true]

/-- A one-element container holding `-1`, built by insertion under the
absolute-value comparator. -/
def sAbsNeg : jump_list Int := runOps cmpAbs [.ins (-1) noDraws true]

/-- A successful `seek` splits the position suffix around the node found. -/
theorem seek_some_split {i : Nat} :
    ∀ {s : List (Entry α)} {e : Entry α} {rest : List (Entry α)},
      seek i s = some (e, rest) → ∃ pre, s = pre ++ e :: rest := by
  intro s
  induction s with
  | nil => intro e rest h; simp [seek] at h
  | cons f s2 ih =>
    intro e rest h
    by_cases hf : i ≤ f.2
    · simp [seek, hf] at h
      exact ⟨[], by simp [h.1, h.2]⟩
    · simp [seek, hf] at h
      obtain ⟨pre, hpre⟩ := ih h
      exact ⟨f :: pre, by simp [hpre]⟩

/-- `seek` over an appended list looks in the first part first. -/
theorem seek_append (i : Nat) (A B : List (Entry α)) :
    seek i (A ++ B) =
      match seek i A with
      | some (e, rest) => some (e, rest ++ B)
      | none => seek i B := by
  induction A with
  | nil => simp [seek]
  | cons f A2 ih =>
    by_cases hf : i ≤ f.2 <;> simp [seek, hf, ih]

/-- At level 0 the walk crosses the whole region where the continue
condition holds: every node has level at least 0, so the walk advances node
by node until the first node where the condition fails. -/
theorem walkLevel_zero_append {pred : α → Bool} {B : List (Entry α)}
    (hB : ∀ e ∈ B, pred e.1 = false) :
    ∀ (A : List (Entry α)) (fuel : Nat), (∀ e ∈ A, pred e.1 = true) →
      A.length ≤ fuel → walkLevel pred 0 fuel (A ++ B) = B := by
  intro A
  induction A with
  | nil =>
    intro fuel _ _
    cases fuel with
    | zero => rfl
    | succ f =>
      cases B with
      | nil => rfl
      | cons b bs => simp [walkLevel, seek, hB b (by simp)]
  | cons a A2 ih =>
    intro fuel hA hlen
    cases fuel with
    | zero => simp at hlen
    | succ f =>
      have ha : pred a.1 = true := hA a (by simp)
      have hA2 : ∀ e ∈ A2, pred e.1 = true := fun e he => hA e (by simp [he])
      simp only [List.cons_append, walkLevel, seek, Nat.zero_le, if_true, ha]
      exact ih f hA2 (by simpa using hlen)

/-- At any level, the walk stops inside the region where the continue
condition holds (or at its boundary): the result still has the stop region
as a suffix, and everything kept before it satisfies the condition. -/
theorem walkLevel_append {pred : α → Bool} {B : List (Entry α)} (i : Nat)
    (hB : ∀ e ∈ B, pred e.1 = false) :
    ∀ (fuel : Nat) (A : List (Entry α)), (∀ e ∈ A, pred e.1 = true) →
      ∃ A2 : List (Entry α), walkLevel pred i fuel (A ++ B) = A2 ++ B ∧
        (∀ e ∈ A2, pred e.1 = true) ∧ A2.length ≤ A.length := by
  intro fuel
  induction fuel with
  | zero => intro A hA; exact ⟨A, rfl, hA, Nat.le_refl _⟩
  | succ f ih =>
    intro A hA
    cases hseek : seek i A with
    | some pr =>
      obtain ⟨e, rest⟩ := pr
      have hsA : seek i (A ++ B) = some (e, rest ++ B) := by
        rw [seek_append, hseek]
      obtain ⟨pre, hpre⟩ := seek_some_split hseek
      have he : e ∈ A := by rw [hpre]; simp
      have hpe : pred e.1 = true := hA e he
      have hrest : ∀ x ∈ rest, pred x.1 = true := by
        intro x hx
        exact hA x (by rw [hpre]; simp [hx])
      have hlen : rest.length ≤ A.length := by
        rw [hpre]; simp [List.length_append]; omega
      obtain ⟨A2, hw, hA2, hlen2⟩ := ih rest hrest
      refine ⟨A2, ?_, hA2, Nat.le_trans hlen2 hlen⟩
      simpa [walkLevel, hsA, hpe] using hw
    | none =>
      have hsA : seek i (A ++ B) = seek i B := by
        rw [seek_append, hseek]
      cases hsB : seek i B with
      | none => exact ⟨A, by simp [walkLevel, hsA, hsB], hA, Nat.le_refl _⟩
      | some pr =>
        obtain ⟨e, rest⟩ := pr
        obtain ⟨pre, hpre⟩ := seek_some_split hsB
        have he : e ∈ B := by rw [hpre]; simp
        exact ⟨A, by simp [walkLevel, hsA, hsB, hB e he], hA, Nat.le_refl _⟩

/-- The full level-descending search lands exactly at the boundary: from any
starting level, the result is the suffix where the continue condition first
fails. -/
theorem descend_append {pred : α → Bool} {B : List (Entry α)}
    (hB : ∀ e ∈ B, pred e.1 = false) :
    ∀ (L : Nat) (A : List (Entry α)) (fuel : Nat), (∀ e ∈ A, pred e.1 = true) →
      A.length ≤ fuel → descend pred fuel L (A ++ B) = B := by
  intro L
  induction L with
  | zero => intro A fuel hA hf; exact walkLevel_zero_append hB A fuel hA hf
  | succ i ih =>
    intro A fuel hA hf
    obtain ⟨A2, hw, hA2, hlen⟩ := walkLevel_append (i + 1) hB fuel A hA
    have : descend pred fuel (i + 1) (A ++ B)
        = descend pred fuel i (walkLevel pred (i + 1) fuel (A ++ B)) := rfl
    rw [this, hw]
    exact ih A2 fuel hA2 (Nat.le_trans hlen hf)

/-- A pairwise-ordered list splits at the boundary of any condition that is
downward closed along the order. -/
theorem pairwise_split {β : Type} {R : β → β → Prop} {p : β → Bool}
    (hmono : ∀ a b, R a b → p b = true → p a = true) :
    ∀ l : List β, l.Pairwise R →
      ∃ A B, l = A ++ B ∧ (∀ x ∈ A, p x = true) ∧ (∀ x ∈ B, p x = false) := by
  intro l
  induction l with
  | nil => exact fun _ => ⟨[], [], rfl, by simp, by simp⟩
  | cons h t ih =>
    intro hp
    rw [List.pairwise_cons] at hp
    obtain ⟨hR, ht⟩ := hp
    by_cases hph : p h = true
    · obtain ⟨A, B, hl, hA, hB⟩ := ih ht
      refine ⟨h :: A, B, by simp [hl], ?_, hB⟩
      intro x hx
      rcases List.mem_cons.mp hx with rfl | hxA
      · exact hph
      · exact hA x hxA
    · refine ⟨[], h :: t, rfl, by simp, ?_⟩
      intro x hx
      rcases List.mem_cons.mp hx with rfl | hxt
      · exact Bool.eq_false_iff.mpr (fun hc => hph (by rw [hc]))
      · by_cases hpx : p x = true
        · exact absurd (hmono h x (hR x hxt) hpx) hph
        · exact Bool.eq_false_iff.mpr (fun hc => hpx (by rw [hc]))

/-- On a sorted container, the traversal engine with a condition monotone
with respect to the comparator lands at the canonical split of the chain:
every node before the result satisfies the condition and every node of the
result fails it. -/
theorem traverse_split {cmp : α → α → Bool} {st : jump_list α} (pred : α → Bool)
    (hs : Sorted cmp st)
    (hmono : ∀ a b : α, cmp a b = true → pred b = true → pred a = true) :
    ∃ A B, st.elems = A ++ B ∧ (∀ e ∈ A, pred e.1 = true) ∧
      (∀ e ∈ B, pred e.1 = false) ∧ traverse pred st = B := by
  obtain ⟨A, B, hl, hA, hB⟩ :=
    pairwise_split (p := fun e : Entry α => pred e.1)
      (fun a b hab hpb => hmono a.1 b.1 hab hpb) st.elems hs
  refine ⟨A, B, hl, hA, hB, ?_⟩
  unfold traverse
  rw [hl]
  exact descend_append hB st.level A (A ++ B).length hA (by simp)

/-- When a comparator-equivalent node exists in a sorted container, the
strictly-before traversal lands exactly on (the first) such node. -/
theorem locate_equiv {cmp : α → α → Bool} {st : jump_list α} {v : α}
    (hs : Sorted cmp st) (htr : CmpTrans cmp)
    (hex : ∃ e ∈ st.elems, cmp e.1 v = false ∧ cmp v e.1 = false) :
    ∃ A w B2, st.elems = A ++ w :: B2 ∧ (∀ e ∈ A, cmp e.1 v = true) ∧
      cmp w.1 v = false ∧ cmp v w.1 = false ∧ (∀ e ∈ B2, cmp e.1 v = false) ∧
      traverse (fun x => cmp x v) st = w :: B2 := by
  obtain ⟨A, B, hl, hA, hB, htrav⟩ :=
    traverse_split (fun x => cmp x v) hs (fun a b hab hpb => htr a b v hab hpb)
  obtain ⟨e0, he0, h1, h2⟩ := hex
  have he0B : e0 ∈ B := by
    rcases List.mem_append.mp (hl ▸ he0) with h | h
    · exact absurd (hA e0 h) (by simp [h1])
    · exact h
  cases B with
  | nil => simp at he0B
  | cons w B2 =>
    have hsl : (A ++ w :: B2).Pairwise (fun e f : Entry α => cmp e.1 f.1 = true) :=
      hl ▸ hs
    obtain ⟨-, hPB, -⟩ := List.pairwise_append.mp hsl
    obtain ⟨hwAll, -⟩ := List.pairwise_cons.mp hPB
    have hwv : cmp w.1 v = false := hB w (by simp)
    have hvw : cmp v w.1 = false := by
      cases hvwc : cmp v w.1 with
      | false => rfl
      | true =>
        exfalso
        rcases List.mem_cons.mp he0B with heq | he0B2
        · rw [heq] at h2; simp [h2] at hvwc
        · have h3 : cmp v e0.1 = true := htr v w.1 e0.1 hvwc (hwAll e0 he0B2)
          simp [h2] at h3
    exact ⟨A, w, B2, hl, hA, hwv, hvw,
      fun e he => hB e (List.mem_cons_of_mem _ he), htrav⟩

/-- When no comparator-equivalent node exists in a sorted container, the
strictly-before traversal lands at the first node ordered after the key. -/
theorem locate_none {cmp : α → α → Bool} {st : jump_list α} {v : α}
    (hs : Sorted cmp st) (htr : CmpTrans cmp)
    (hno : containsEquiv cmp st v = false) :
    ∃ A B, st.elems = A ++ B ∧ (∀ e ∈ A, cmp e.1 v = true) ∧
      (∀ e ∈ B, cmp e.1 v = false ∧ cmp v e.1 = true) ∧
      traverse (fun x => cmp x v) st = B := by
  obtain ⟨A, B, hl, hA, hB, htrav⟩ :=
    traverse_split (fun x => cmp x v) hs (fun a b hab hpb => htr a b v hab hpb)
  have hall : ∀ e ∈ st.elems, cmp e.1 v = true ∨ cmp v e.1 = true := by
    intro e he
    have := hno
    simp only [containsEquiv, List.any_eq_false] at this
    have h2 := this e he
    simp only [Bool.and_eq_true, Bool.not_eq_true'] at h2
    rcases hev : cmp e.1 v with _ | _
    · rcases hve : cmp v e.1 with _ | _
      · exact absurd ⟨hev, hve⟩ h2
      · exact Or.inr rfl
    · exact Or.inl rfl
  refine ⟨A, B, hl, hA, ?_, htrav⟩
  intro e he
  have hev : cmp e.1 v = false := hB e he
  have hmem : e ∈ st.elems := by rw [hl]; exact List.mem_append.mpr (Or.inr he)
  rcases hall e hmem with h | h
  · rw [hev] at h; exact absurd h (by simp)
  · exact ⟨hev, h⟩

/-- The duplicate branch of `insert` on a sorted container: when an
equivalent node exists, insert returns an iterator to the node the traversal
lands on and reports no insertion, leaving the state untouched. -/
theorem insert_run_dup {cmp : α → α → Bool} {st : jump_list α} {v : α}
    (draws : Nat → Bool) (ok : Bool)
    (hs : Sorted cmp st) (htr : CmpTrans cmp)
    (hex : ∃ e ∈ st.elems, cmp e.1 v = false ∧ cmp v e.1 = false) :
    ∃ w : Entry α, w ∈ st.elems ∧ cmp w.1 v = false ∧ cmp v w.1 = false ∧
      insert cmp st v draws ok = (st, some (some w.1, false)) := by
  obtain ⟨A, w, B2, hl, hA, hwv, hvw, hB2, htrav⟩ := locate_equiv hs htr hex
  refine ⟨w, by rw [hl]; simp, hwv, hvw, ?_⟩
  simp [insert, htrav, hwv, hvw]

/-- The duplicate branch of `insert`, pinned to the given stored node: under
a strict weak order there is only one equivalent node, and insert returns an
iterator to exactly that node. -/
theorem insert_dup_pinned {cmp : α → α → Bool} {st : jump_list α} {v : α}
    {draws : Nat → Bool} {ok : Bool}
    (hs : Sorted cmp st) (htr : CmpTrans cmp) (het : EquivTrans cmp)
    {e0 : Entry α} (he0 : e0 ∈ st.elems)
    (h1 : cmp e0.1 v = false) (h2 : cmp v e0.1 = false) :
    insert cmp st v draws ok = (st, some (some e0.1, false)) := by
  obtain ⟨A, w, B2, hl, hA, hwv, hvw, hB2, htrav⟩ :=
    locate_equiv hs htr ⟨e0, he0, h1, h2⟩
  have hrun : insert cmp st v draws ok = (st, some (some w.1, false)) := by
    simp [insert, htrav, hwv, hvw]
  have hsl : (A ++ w :: B2).Pairwise (fun e f : Entry α => cmp e.1 f.1 = true) :=
    hl ▸ hs
  obtain ⟨-, hPB, hcross⟩ := List.pairwise_append.mp hsl
  obtain ⟨hwAll, -⟩ := List.pairwise_cons.mp hPB
  have heq : e0 = w := by
    rcases List.mem_append.mp (hl ▸ he0) with h | h
    · exact absurd (hA e0 h) (by simp [h1])
    · rcases List.mem_cons.mp h with heq | he0B2
      · exact heq
      · exfalso
        have hphases := het e0.1 v w.1 h1 h2 hvw hwv
        have : cmp w.1 e0.1 = true := hwAll e0 he0B2
        simp [hphases.2] at this
  rw [hrun, heq]

/-- The fresh-node branch of `insert` on a sorted container with no
equivalent node and a successful allocation: the node is spliced exactly at
the sorted position, the level field is raised to the sampled level when it
exceeds the current one, and the size field is incremented. -/
theorem insert_new {cmp : α → α → Bool} {st : jump_list α} {v : α}
    (draws : Nat → Bool)
    (hs : Sorted cmp st) (htr : CmpTrans cmp)
    (hno : containsEquiv cmp st v = false) :
    ∃ A B, st.elems = A ++ B ∧ (∀ e ∈ A, cmp e.1 v = true) ∧
      (∀ e ∈ B, cmp v e.1 = true) ∧
      insert cmp st v draws true =
        (⟨A ++ (v, randomLevel draws) :: B,
          if st.level < randomLevel draws then randomLevel draws else st.level,
          st.size_ + 1⟩, some (some v, true)) := by
  obtain ⟨A, B, hl, hA, hB, htrav⟩ := locate_none hs htr hno
  refine ⟨A, B, hl, hA, fun e he => (hB e he).2, ?_⟩
  have hk : st.elems.length - B.length = A.length := by
    rw [hl]; simp
  have htake : st.elems.take A.length = A := by
    rw [hl]; exact List.take_left A B
  have hdrop : st.elems.drop A.length = B := by
    rw [hl]; exact List.drop_left A B
  cases B with
  | nil => simp [insert, htrav, insertNew, hk, htake, hdrop, hl]
  | cons w B2 =>
    have hwv : cmp w.1 v = false := (hB w (by simp)).1
    have hvw : cmp v w.1 = true := (hB w (by simp)).2
    have hk2 : st.elems.length - (B2.length + 1) = A.length := by
      rw [hl]; simp
    simp [insert, htrav, insertNew, hwv, hvw, hk2, htake, hdrop]

/-- A failed allocation inside `insert` leaves the chain untouched (only the
`level` field may have been raised before the failure). -/
theorem insert_allocFail_elems (cmp : α → α → Bool) (st : jump_list α)
    (v : α) (draws : Nat → Bool) :
    (insert cmp st v draws false).1.elems = st.elems := by
  rcases h : (traverse (fun x => cmp x v) st).head? with _ | e
  · simp [insert, insertNew, h]
  · by_cases hc : (!cmp e.1 v && !cmp v e.1) = true
    · simp [insert, insertNew, h, hc]
    · simp [insert, insertNew, h, hc]

/-- Removing the chain node at position `k` keeps a sublist of the chain. -/
theorem take_drop_sublist (l : List (Entry α)) (k : Nat) :
    (l.take k ++ l.drop (k + 1)).Sublist l := by
  conv_rhs => rw [← List.take_append_drop k l]
  apply List.Sublist.append_left
  have h := List.drop_sublist 1 (l.drop k)
  rwa [List.drop_drop] at h

/-- `insert` preserves the sortedness invariant (for both allocation
outcomes and in both branches). -/
theorem insert_sorted {cmp : α → α → Bool} {st : jump_list α} (v : α)
    (draws : Nat → Bool) (ok : Bool)
    (hs : Sorted cmp st) (htr : CmpTrans cmp) :
    Sorted cmp (insert cmp st v draws ok).1 := by
  by_cases hc : containsEquiv cmp st v = true
  · obtain ⟨e0, he0, hev⟩ := by
      simpa only [containsEquiv, List.any_eq_true, Bool.and_eq_true,
        Bool.not_eq_true'] using hc
    obtain ⟨w, -, -, -, hrun⟩ :=
      insert_run_dup draws ok hs htr ⟨e0, he0, hev.1, hev.2⟩
    rw [hrun]
    exact hs
  · have hno : containsEquiv cmp st v = false := by
      revert hc; cases containsEquiv cmp st v <;> simp
    cases ok with
    | false =>
      have h := insert_allocFail_elems cmp st v draws
      unfold Sorted
      rw [h]
      exact hs
    | true =>
      obtain ⟨A, B, hl, hA, hB, hrun⟩ := insert_new draws hs htr hno
      rw [hrun]
      unfold Sorted
      have hsl : (A ++ B).Pairwise (fun e f : Entry α => cmp e.1 f.1 = true) :=
        hl ▸ hs
      obtain ⟨hPA, hPB, hcross⟩ := List.pairwise_append.mp hsl
      refine List.pairwise_append.mpr ⟨hPA, ?_, ?_⟩
      · refine List.pairwise_cons.mpr ⟨fun e he => hB e he, hPB⟩
      · intro a ha b hb
        rcases List.mem_cons.mp hb with rfl | hbB
        · exact hA a ha
        · exact hcross a ha b hbB

/-- The hit branch of `erase(const_iterator)` on a sorted container: the
equivalent node is unlinked from the chain, the level field is shrunk, the
size field is decremented, and the follower is returned. -/
theorem erase_hit {cmp : α → α → Bool} {st : jump_list α} {v : α}
    (hs : Sorted cmp st) (htr : CmpTrans cmp)
    (hex : ∃ e ∈ st.elems, cmp e.1 v = false ∧ cmp v e.1 = false) :
    ∃ A w B2, st.elems = A ++ w :: B2 ∧ (∀ e ∈ A, cmp e.1 v = true) ∧
      cmp w.1 v = false ∧ cmp v w.1 = false ∧ (∀ e ∈ B2, cmp e.1 v = false) ∧
      erasePos cmp st (some v) =
        (⟨A ++ B2, shrinkLevel (A ++ B2) st.level, st.size_ - 1⟩,
         B2.head?.map (fun f => f.1)) := by
  obtain ⟨A, w, B2, hl, hA, hwv, hvw, hB2, htrav⟩ := locate_equiv hs htr hex
  refine ⟨A, w, B2, hl, hA, hwv, hvw, hB2, ?_⟩
  have hk2 : st.elems.length - (B2.length + 1) = A.length := by
    rw [hl]; simp
  have htake : st.elems.take A.length = A := by
    rw [hl]; exact List.take_left A _
  have hdrop1 : st.elems.drop (A.length + 1) = B2 := by
    have h0 : st.elems.drop A.length = w :: B2 := by
      rw [hl]; exact List.drop_left A _
    have h1 := List.drop_drop 1 A.length st.elems
    rw [h0] at h1
    exact h1.symm
  simp [erasePos, htrav, hwv, hvw, hk2, htake, hdrop1]

/-- The defensive-check branch of `erase(const_iterator)`: when no
equivalent node exists, erasure is a no-op returning the end iterator. -/
theorem erase_miss {cmp : α → α → Bool} {st : jump_list α} {v : α}
    (hs : Sorted cmp st) (htr : CmpTrans cmp)
    (hno : containsEquiv cmp st v = false) :
    erasePos cmp st (some v) = (st, none) := by
  obtain ⟨A, B, hl, hA, hB, htrav⟩ := locate_none hs htr hno
  cases B with
  | nil => simp [erasePos, htrav]
  | cons w B2 =>
    have hvw : cmp v w.1 = true := (hB w (by simp)).2
    simp [erasePos, htrav, hvw]

/-- `erase(const_iterator)` preserves the sortedness invariant, with no
assumption on the comparator: the chain either stays unchanged or loses one
node. -/
theorem erasePos_sorted {cmp : α → α → Bool} {st : jump_list α}
    (pos : Option α) (hs : Sorted cmp st) :
    Sorted cmp (erasePos cmp st pos).1 := by
  rcases pos with _ | v
  · exact hs
  · rcases h : (traverse (fun x => cmp x v) st).head? with _ | e
    · simp only [erasePos, h]
      exact hs
    · by_cases hc : (cmp e.1 v || cmp v e.1) = true
      · simp only [erasePos, h, hc, if_true]
        exact hs
      · have hc2 : (cmp e.1 v || cmp v e.1) = false := by
          revert hc; cases cmp e.1 v <;> cases cmp v e.1 <;> simp
        simp only [erasePos, h, hc2, Bool.false_eq_true, if_false]
        exact List.Pairwise.sublist (take_drop_sublist st.elems _) hs

/-- `find` on a sorted container with an equivalent node present returns
that node's value. -/
theorem find_some {cmp : α → α → Bool} {st : jump_list α} {k : α}
    (hs : Sorted cmp st) (htr : CmpTrans cmp)
    (hex : ∃ e ∈ st.elems, cmp e.1 k = false ∧ cmp k e.1 = false) :
    ∃ A w B2, st.elems = A ++ w :: B2 ∧ (∀ e ∈ A, cmp e.1 k = true) ∧
      cmp w.1 k = false ∧ cmp k w.1 = false ∧ (∀ e ∈ B2, cmp e.1 k = false) ∧
      find cmp st k = some w.1 := by
  obtain ⟨A, w, B2, hl, hA, hwk, hkw, hB2, htrav⟩ := locate_equiv hs htr hex
  exact ⟨A, w, B2, hl, hA, hwk, hkw, hB2, by simp [find, htrav, hwk, hkw]⟩

/-- `find` on a sorted container with no equivalent node returns the end
iterator. -/
theorem find_none_of {cmp : α → α → Bool} {st : jump_list α} {k : α}
    (hs : Sorted cmp st) (htr : CmpTrans cmp)
    (hno : containsEquiv cmp st k = false) :
    find cmp st k = none := by
  obtain ⟨A, B, hl, hA, hB, htrav⟩ := locate_none hs htr hno
  cases B with
  | nil => simp [find, htrav]
  | cons w B2 =>
    have hkw : cmp k w.1 = true := (hB w (by simp)).2
    simp [find, htrav, hkw]

/-- Incrementing an iterator that references a stored node of a sorted
container steps to the immediate successor in the chain (for an
irreflexive comparator, the traversal relocates exactly that node). -/
theorem iterNext_at {cmp : α → α → Bool} {st : jump_list α}
    (hs : Sorted cmp st) (htr : CmpTrans cmp) (hirr : CmpIrrefl cmp)
    {w : Entry α} (hw : w ∈ st.elems) :
    ∃ A B2, st.elems = A ++ w :: B2 ∧
      iterNext cmp st (some w.1) = B2.head?.map (fun f => f.1) := by
  obtain ⟨A, B, hl, hA, hB, htrav⟩ :=
    traverse_split (fun x => cmp x w.1) hs
      (fun a b hab hpb => htr a b w.1 hab hpb)
  have hwB : w ∈ B := by
    rcases List.mem_append.mp (hl ▸ hw) with h | h
    · exact absurd (hA w h) (by simp [hirr w.1])
    · exact h
  cases B with
  | nil => simp at hwB
  | cons h0 rest =>
    have hsl : (A ++ h0 :: rest).Pairwise (fun e f : Entry α => cmp e.1 f.1 = true) :=
      hl ▸ hs
    obtain ⟨-, hPB, -⟩ := List.pairwise_append.mp hsl
    obtain ⟨hAll, -⟩ := List.pairwise_cons.mp hPB
    have hh0 : h0 = w := by
      rcases List.mem_cons.mp hwB with heq | hwrest
      · exact heq.symm
      · exfalso
        have h1 : cmp h0.1 w.1 = false := hB h0 (by simp)
        have h2 : cmp h0.1 w.1 = true := hAll w hwrest
        simp [h1] at h2
    subst hh0
    refine ⟨A, rest, hl, ?_⟩
    simp [iterNext, htrav, hirr h0.1]

/-- `lower_bound` returns the first element of the iteration sequence that
is not ordered before the key (or the end iterator). -/
theorem lower_bound_eq {cmp : α → α → Bool} {st : jump_list α} {key : α}
    (hs : Sorted cmp st) (htr : CmpTrans cmp) :
    lower_bound cmp st key = (toSeq st).find? (fun x => !cmp x key) := by
  obtain ⟨A, B, hl, hA, hB, htrav⟩ :=
    traverse_split (fun x => cmp x key) hs (fun a b hab hpb => htr a b key hab hpb)
  have hfA : (A.map (fun e => e.1)).find? (fun x => !cmp x key) = none := by
    rw [List.find?_eq_none]
    intro x hx
    obtain ⟨e, he, rfl⟩ := List.mem_map.mp hx
    simp [hA e he]
  have hseq : toSeq st = A.map (fun e => e.1) ++ B.map (fun e => e.1) := by
    rw [toSeq, hl, List.map_append]
  rw [hseq, List.find?_append, hfA, Option.none_or]
  cases B with
  | nil => simp [lower_bound, htrav]
  | cons w B2 => simp [lower_bound, htrav, hB w (by simp)]

/-- `upper_bound` returns the first element of the iteration sequence that
the key is ordered before (or the end iterator). -/
theorem upper_bound_eq {cmp : α → α → Bool} {st : jump_list α} {key : α}
    (hs : Sorted cmp st) (htr : CmpTrans cmp) :
    upper_bound cmp st key = (toSeq st).find? (fun x => cmp key x) := by
  have hmono : ∀ a b : α, cmp a b = true → (!cmp key b) = true → (!cmp key a) = true := by
    intro a b hab hpb
    simp only [Bool.not_eq_true'] at hpb ⊢
    cases hka : cmp key a with
    | false => rfl
    | true => simp [htr key a b hka hab] at hpb
  obtain ⟨A, B, hl, hA, hB, htrav⟩ :=
    traverse_split (fun x => !cmp key x) hs hmono
  · have hfA : (A.map (fun e => e.1)).find? (fun x => cmp key x) = none := by
      rw [List.find?_eq_none]
      intro x hx
      obtain ⟨e, he, rfl⟩ := List.mem_map.mp hx
      have := hA e he
      simp only [Bool.not_eq_true'] at this
      simp [this]
    have hseq : toSeq st = A.map (fun e => e.1) ++ B.map (fun e => e.1) := by
      rw [toSeq, hl, List.map_append]
    rw [hseq, List.find?_append, hfA, Option.none_or]
    cases B with
    | nil => simp [upper_bound, htrav]
    | cons w B2 =>
      have hw := hB w (by simp)
      have hw2 : cmp key w.1 = true := by
        revert hw; cases cmp key w.1 <;> simp
      simp [upper_bound, htrav, hw2, List.find?]

/-- Every public mutating operation preserves the sortedness invariant. -/
theorem runOp_sorted {cmp : α → α → Bool} (htr : CmpTrans cmp)
    (st : jump_list α) (op : Op α) (hs : Sorted cmp st) :
    Sorted cmp (runOp cmp st op) := by
  cases op with
  | ins v draws ok => exact insert_sorted v draws ok hs htr
  | delPos pos => exact erasePos_sorted pos hs
  | delKey k =>
    show Sorted cmp (eraseKey cmp st k).1
    rcases h : find cmp st k with _ | w
    · simp only [eraseKey, h]
      exact hs
    · simp only [eraseKey, h]
      exact erasePos_sorted (some w) hs
  | clr => exact List.Pairwise.nil

/-- A fold of public operations from any sorted state stays sorted. -/
theorem foldl_sorted {cmp : α → α → Bool} (htr : CmpTrans cmp) :
    ∀ (ops : List (Op α)) (st : jump_list α), Sorted cmp st →
      Sorted cmp (ops.foldl (runOp cmp) st) := by
  intro ops
  induction ops with
  | nil => exact fun st hs => hs
  | cons op rest ih =>
    intro st hs
    exact ih (runOp cmp st op) (runOp_sorted htr st op hs)

/-- Full characterization of the `randomLevel` loop: starting at `lvl` with
`fuel = MAX_LEVEL - lvl`, the result is at least `lvl`, at most `MAX_LEVEL`,
every draw strictly below the result succeeded, and the loop ended at the
ceiling or at a failed draw. -/
theorem randomLevelAux_spec (draws : Nat → Bool) :
    ∀ (fuel lvl : Nat), lvl + fuel = MAX_LEVEL →
      lvl ≤ randomLevelAux draws fuel lvl ∧
      randomLevelAux draws fuel lvl ≤ MAX_LEVEL ∧
      (∀ i, lvl ≤ i → i < randomLevelAux draws fuel lvl → draws i = true) ∧
      (randomLevelAux draws fuel lvl = MAX_LEVEL ∨
        draws (randomLevelAux draws fuel lvl) = false) := by
  intro fuel
  induction fuel with
  | zero =>
    intro lvl hl
    simp only [randomLevelAux]
    refine ⟨Nat.le_refl _, by omega, fun i h1 h2 => absurd h2 (by omega), Or.inl (by omega)⟩
  | succ f ih =>
    intro lvl hl
    have hlt : lvl < MAX_LEVEL := by omega
    by_cases hd : draws lvl = true
    · have hcond : (draws lvl && decide (lvl < MAX_LEVEL)) = true := by
        simp [hd, hlt]
      have hstep : randomLevelAux draws (f + 1) lvl = randomLevelAux draws f (lvl + 1) := by
        simp [randomLevelAux, hcond]
      obtain ⟨ha, hb, hc, hor⟩ := ih (lvl + 1) (by omega)
      rw [hstep]
      refine ⟨by omega, hb, ?_, hor⟩
      intro i h1 h2
      by_cases hi : i = lvl
      · subst hi; exact hd
      · exact hc i (by omega) h2
    · have hdf : draws lvl = false := by
        revert hd; cases draws lvl <;> simp
      have hcond : (draws lvl && decide (lvl < MAX_LEVEL)) = false := by
        simp [hdf]
      have hstep : randomLevelAux draws (f + 1) lvl = lvl := by
        simp [randomLevelAux, hcond]
      rw [hstep]
      exact ⟨Nat.le_refl _, by omega, fun i h1 h2 => absurd h2 (by omega), Or.inr hdf⟩

/-- The `std::equal` walk over two equally long ranges succeeds exactly when
the ranges are element-wise related by the element equality. -/
theorem stdEqual_iff_forall2 {beq : α → α → Bool} :
    ∀ {l1 l2 : List α}, l1.length = l2.length →
      (stdEqual beq l1 l2 = true ↔
        List.Forall₂ (fun a b => beq a b = true) l1 l2) := by
  intro l1
  induction l1 with
  | nil =>
    intro l2 hlen
    cases l2 with
    | nil => exact ⟨fun _ => List.Forall₂.nil, fun _ => rfl⟩
    | cons b bs => simp at hlen
  | cons a as ih =>
    intro l2 hlen
    cases l2 with
    | nil => simp at hlen
    | cons b bs =>
      have h2 : as.length = bs.length := by simpa using hlen
      constructor
      · intro h
        have h3 : beq a b = true ∧ stdEqual beq as bs = true := by
          simpa [stdEqual] using h
        exact List.Forall₂.cons h3.1 ((ih h2).mp h3.2)
      · intro h
        obtain ⟨h1, hrest⟩ := List.forall₂_cons.mp h
        show (beq a b && stdEqual beq as bs) = true
        simp [h1, (ih h2).mpr hrest]

/-- The `std::lexicographical_compare` walk decides the lexicographic order
on the iteration sequences, for an irreflexive element order whose
incomparability is equality. -/
theorem lexCompare_iff_lex {lt : α → α → Bool}
    (hirr : ∀ a, lt a a = false)
    (htot : ∀ a b, lt a b = false → lt b a = false → a = b) :
    ∀ l1 l2 : List α,
      (lexCompare lt l1 l2 = true ↔ List.Lex (fun a b => lt a b = true) l1 l2) := by
  intro l1
  induction l1 with
  | nil =>
    intro l2
    cases l2 with
    | nil =>
      constructor
      · intro h; simp [lexCompare] at h
      · intro h; exact absurd h (List.Lex.not_nil_right _ _)
    | cons b bs => exact ⟨fun _ => List.Lex.nil, fun _ => rfl⟩
  | cons a as ih =>
    intro l2
    cases l2 with
    | nil =>
      constructor
      · intro h; simp [lexCompare] at h
      · intro h; exact absurd h (List.Lex.not_nil_right _ _)
    | cons b bs =>
      by_cases hab : lt a b = true
      · constructor
        · intro _; exact List.Lex.rel hab
        · intro _; simp [lexCompare, hab]
      · have hab2 : lt a b = false := by
          revert hab; cases lt a b <;> simp
        by_cases hba : lt b a = true
        · constructor
          · intro h; simp [lexCompare, hab2, hba] at h
          · intro h
            exfalso
            cases h with
            | cons h0 => rw [hirr] at hba; exact Bool.false_ne_true hba
            | rel h0 => rw [hab2] at h0; exact Bool.false_ne_true h0
        · have hba2 : lt b a = false := by
            revert hba; cases lt b a <;> simp
          have heq : a = b := htot a b hab2 hba2
          subst heq
          have hstep : lexCompare lt (a :: as) (a :: bs) = lexCompare lt as bs := by
            simp [lexCompare, hab2]
          rw [hstep]
          constructor
          · intro h; exact List.Lex.cons ((ih bs).mp h)
          · intro h
            cases h with
            | cons h0 => exact (ih bs).mpr h0
            | rel h0 => rw [hirr] at h0; exact absurd h0 (Bool.false_ne_true)

/-- Extract a witness node from a true `containsEquiv` check. -/
theorem containsEquiv_exists {cmp : α → α → Bool} {st : jump_list α} {v : α}
    (hc : containsEquiv cmp st v = true) :
    ∃ e ∈ st.elems, cmp e.1 v = false ∧ cmp v e.1 = false := by
  simpa only [containsEquiv, List.any_eq_true, Bool.and_eq_true,
    Bool.not_eq_true'] using hc

/-- The default integer comparator is transitive. -/
theorem cmpInt_trans : CmpTrans cmpInt := by
  intro a b c h1 h2
  simp only [cmpInt, decide_eq_true_eq] at h1 h2 ⊢
  omega

/-- The default integer comparator is irreflexive. -/
theorem cmpInt_irrefl : CmpIrrefl cmpInt := by
  intro a
  simp [cmpInt]

/-- Equivalence under the default integer comparator is transitive. -/
theorem cmpInt_equivTrans : EquivTrans cmpInt := by
  intro a b c h1 h2 h3 h4
  simp only [cmpInt, decide_eq_false_iff_not, Int.not_lt] at h1 h2 h3 h4
  constructor <;> simp only [cmpInt, decide_eq_false_iff_not, Int.not_lt] <;> omega

/-- Incomparability under the default integer comparator is equality. -/
theorem cmpInt_total : ∀ a b : Int, cmpInt a b = false → cmpInt b a = false → a = b := by
  intro a b h1 h2
  simp only [cmpInt, decide_eq_false_iff_not, Int.not_lt] at h1 h2
  omega

/-- C1: Sortedness invariant.  After any finite sequence of public
operations (insert, erase by position, erase by key, clear) starting from an
empty container, iterating from begin() to end() over the level-0 chain
visits the stored elements strictly ascending under the comparator (every
earlier element compares before every later one, in particular adjacent
ones), with no two visited elements comparator-equivalent. -/
theorem C1_sortedness_invariant {α : Type} (cmp : α → α → Bool)
    (htr : CmpTrans cmp) (ops : List (Op α)) :
    (toSeq (runOps cmp ops)).Pairwise (fun a b => cmp a b = true) ∧
    (toSeq (runOps cmp ops)).Chain' (fun a b => cmp a b = true) ∧
    (toSeq (runOps cmp ops)).Pairwise
      (fun a b => ¬(cmp a b = false ∧ cmp b a = false)) := by
  have hs : Sorted cmp (runOps cmp ops) :=
    foldl_sorted htr ops (emptyJL α) List.Pairwise.nil
  have hp : (toSeq (runOps cmp ops)).Pairwise (fun a b => cmp a b = true) :=
    List.pairwise_map.mpr hs
  refine ⟨hp, hp.chain', hp.imp ?_⟩
  intro a b hab hcontra
  rw [hab] at hcontra
  exact absurd hcontra.1 (by simp)

/-- C1 witness: a concrete operation sequence (inserts with various sampled
levels, erases by key and by position, a failed allocation) keeps the
iteration strictly ascending and equivalence-free. -/
theorem C1_sortedness_invariant_witness :
    (toSeq (runOps cmpInt
      [Op.ins 5 noDraws true, Op.ins 3 oneDraw true, Op.ins 8 noDraws true,
       Op.ins 1 noDraws true, Op.ins 7 noDraws false, Op.delKey 5,
       Op.delPos (some 3), Op.ins 2 oneDraw true])).Pairwise
        (fun a b => cmpInt a b = true) ∧
    (toSeq (runOps cmpInt
      [Op.ins 5 noDraws true, Op.ins 3 oneDraw true, Op.ins 8 noDraws true,
       Op.ins 1 noDraws true, Op.ins 7 noDraws false, Op.delKey 5,
       Op.delPos (some 3), Op.ins 2 oneDraw true])).Chain'
        (fun a b => cmpInt a b = true) ∧
    (toSeq (runOps cmpInt
      [Op.ins 5 noDraws true, Op.ins 3 oneDraw true, Op.ins 8 noDraws true,
       Op.ins 1 noDraws true, Op.ins 7 noDraws false, Op.delKey 5,
       Op.delPos (some 3), Op.ins 2 oneDraw true])).Pairwise
        (fun a b => ¬(cmpInt a b = false ∧ cmpInt b a = false)) :=
  C1_sortedness_invariant cmpInt cmpInt_trans
    [Op.ins 5 noDraws true, Op.ins 3 oneDraw true, Op.ins 8 noDraws true,
     Op.ins 1 noDraws true, Op.ins 7 noDraws false, Op.delKey 5,
     Op.delPos (some 3), Op.ins 2 oneDraw true]

/-- C2: Insert semantics.  If an element comparator-equivalent to `v` is
stored, insert returns an iterator to that very element with `inserted =
false` and leaves the container (elements, level, size) unchanged; otherwise
it splices `v` at its sorted position, increments the size field by one, and
returns an iterator to the new element with `inserted = true`. -/
theorem C2_insert_semantics {α : Type} (cmp : α → α → Bool)
    (st : jump_list α) (v : α) (draws : Nat → Bool)
    (hinv : Inv cmp st) (htr : CmpTrans cmp) (het : EquivTrans cmp) :
    (∀ e ∈ st.elems, cmp e.1 v = false → cmp v e.1 = false →
        insert cmp st v draws true = (st, some (some e.1, false))) ∧
    (containsEquiv cmp st v = false →
      (insert cmp st v draws true).2 = some (some v, true) ∧
      (insert cmp st v draws true).1.size_ = st.size_ + 1 ∧
      ∃ A B, st.elems = A ++ B ∧
        (insert cmp st v draws true).1.elems = A ++ (v, randomLevel draws) :: B ∧
        (∀ e ∈ A, cmp e.1 v = true) ∧ (∀ e ∈ B, cmp v e.1 = true)) := by
  obtain ⟨hs, hsz⟩ := hinv
  constructor
  · intro e he h1 h2
    exact insert_dup_pinned hs htr het he h1 h2
  · intro hno
    obtain ⟨A, B, hl, hA, hB, hrun⟩ := insert_new draws hs htr hno
    rw [hrun]
    exact ⟨rfl, rfl, A, B, hl, rfl, hA, hB⟩

/-- C2 witness: on the container {1,2,3}, inserting 2 again is reported as
not inserted with an iterator to the stored 2 and no state change, and
inserting a fresh key is reported inserted with the size incremented. -/
theorem C2_insert_semantics_witness :
    (∀ e ∈ sample123.elems, cmpInt e.1 2 = false → cmpInt 2 e.1 = false →
        insert cmpInt sample123 2 noDraws true = (sample123, some (some e.1, false))) ∧
    (containsEquiv cmpInt sample123 2 = false →
      (insert cmpInt sample123 2 noDraws true).2 = some (some 2, true) ∧
      (insert cmpInt sample123 2 noDraws true).1.size_ = sample123.size_ + 1 ∧
      ∃ A B, sample123.elems = A ++ B ∧
        (insert cmpInt sample123 2 noDraws true).1.elems
          = A ++ ((2 : Int), randomLevel noDraws) :: B ∧
        (∀ e ∈ A, cmpInt e.1 2 = true) ∧ (∀ e ∈ B, cmpInt 2 e.1 = true)) :=
  C2_insert_semantics cmpInt sample123 2 noDraws ⟨by decide, by decide⟩
    cmpInt_trans cmpInt_equivTrans

/-- C3: Bound semantics.  lower_bound returns the first element of the
iteration sequence not ordered before the key (comp(element, key) false) or
end(), upper_bound returns the first element the key is ordered before
(comp(key, element) true) or end(); concretely on {1,3,5,7,9},
lower_bound(4) references 5, upper_bound(5) references 7, and upper_bound(9)
is end(). -/
theorem C3_bound_semantics {α : Type} (cmp : α → α → Bool)
    (st : jump_list α) (key : α) (hs : Sorted cmp st) (htr : CmpTrans cmp) :
    lower_bound cmp st key = (toSeq st).find? (fun x => !cmp x key) ∧
    upper_bound cmp st key = (toSeq st).find? (fun x => cmp key x) ∧
    lower_bound cmpInt sampleOdd 4 = some 5 ∧
    upper_bound cmpInt sampleOdd 5 = some 7 ∧
    upper_bound cmpInt sampleOdd 9 = none :=
  ⟨lower_bound_eq hs htr, upper_bound_eq hs htr, by decide, by decide, by decide⟩

/-- C3 witness: the bound characterization instantiated on the container
{1,3,5,7,9} at key 4, together with the concrete scenarios. -/
theorem C3_bound_semantics_witness :
    lower_bound cmpInt sampleOdd 4 = (toSeq sampleOdd).find? (fun x => !cmpInt x 4) ∧
    upper_bound cmpInt sampleOdd 4 = (toSeq sampleOdd).find? (fun x => cmpInt 4 x) ∧
    lower_bound cmpInt sampleOdd 4 = some 5 ∧
    upper_bound cmpInt sampleOdd 5 = some 7 ∧
    upper_bound cmpInt sampleOdd 9 = none :=
  C3_bound_semantics cmpInt sampleOdd 4 (by decide) cmpInt_trans

/-- C4: Erase by position.  Erasing the end iterator, or a position whose
value the key-based search cannot match with a comparator-equivalent stored
element (a stale or foreign iterator), changes nothing and returns end();
otherwise the equivalent element is removed, the size field is decremented
by one, and an iterator to the element that followed the erased one in
iteration order (end() when it was last) is returned. -/
theorem C4_erase_by_position {α : Type} (cmp : α → α → Bool)
    (st : jump_list α) (hinv : Inv cmp st) (htr : CmpTrans cmp) :
    (erasePos cmp st none = (st, none)) ∧
    (∀ v, containsEquiv cmp st v = false → erasePos cmp st (some v) = (st, none)) ∧
    (∀ v, containsEquiv cmp st v = true →
      ∃ A w B2, st.elems = A ++ w :: B2 ∧
        cmp w.1 v = false ∧ cmp v w.1 = false ∧
        (erasePos cmp st (some v)).1.elems = A ++ B2 ∧
        (erasePos cmp st (some v)).1.size_ + 1 = st.size_ ∧
        (erasePos cmp st (some v)).2 = B2.head?.map (fun f => f.1)) := by
  obtain ⟨hs, hsz⟩ := hinv
  refine ⟨rfl, fun v hno => erase_miss hs htr hno, ?_⟩
  intro v hcv
  obtain ⟨A, w, B2, hl, hA, h1, h2, hB2, hrun⟩ :=
    erase_hit hs htr (containsEquiv_exists hcv)
  have hlen : st.size_ = A.length + (B2.length + 1) := by
    rw [hsz, hl]; simp
  refine ⟨A, w, B2, hl, h1, h2, by rw [hrun], ?_, by rw [hrun]⟩
  rw [hrun]
  show st.size_ - 1 + 1 = st.size_
  omega

/-- C4 witness: on the container {1,2,3}, erasing end(), erasing a foreign
position referencing 42, and erasing the position of 2 behave as stated. -/
theorem C4_erase_by_position_witness :
    (erasePos cmpInt sample123 none = (sample123, none)) ∧
    (∀ v, containsEquiv cmpInt sample123 v = false →
      erasePos cmpInt sample123 (some v) = (sample123, none)) ∧
    (∀ v, containsEquiv cmpInt sample123 v = true →
      ∃ A w B2, sample123.elems = A ++ w :: B2 ∧
        cmpInt w.1 v = false ∧ cmpInt v w.1 = false ∧
        (erasePos cmpInt sample123 (some v)).1.elems = A ++ B2 ∧
        (erasePos cmpInt sample123 (some v)).1.size_ + 1 = sample123.size_ ∧
        (erasePos cmpInt sample123 (some v)).2 = B2.head?.map (fun f => f.1)) :=
  C4_erase_by_position cmpInt sample123 ⟨by decide, by decide⟩ cmpInt_trans

/-- C5: Erase by key.  The result is always 0 or 1: it is 1 with the unique
comparator-equivalent element removed (afterwards find(k) is end() and the
size field is one less) when such an element exists, and 0 with the
container left completely unchanged when none exists. -/
theorem C5_erase_by_key {α : Type} (cmp : α → α → Bool)
    (st : jump_list α) (k : α) (hinv : Inv cmp st) (htr : CmpTrans cmp)
    (hirr : CmpIrrefl cmp) (het : EquivTrans cmp) :
    ((eraseKey cmp st k).2 = 0 ∨ (eraseKey cmp st k).2 = 1) ∧
    (containsEquiv cmp st k = false → eraseKey cmp st k = (st, 0)) ∧
    (containsEquiv cmp st k = true →
      (eraseKey cmp st k).2 = 1 ∧
      (eraseKey cmp st k).1.size_ + 1 = st.size_ ∧
      find cmp (eraseKey cmp st k).1 k = none ∧
      ∃ A w B2, st.elems = A ++ w :: B2 ∧
        cmp w.1 k = false ∧ cmp k w.1 = false ∧
        (eraseKey cmp st k).1.elems = A ++ B2) := by
  obtain ⟨hs, hsz⟩ := hinv
  refine ⟨?_, ?_, ?_⟩
  · rcases h : find cmp st k with _ | w
    · exact Or.inl (by simp [eraseKey, h])
    · exact Or.inr (by simp [eraseKey, h])
  · intro hno
    simp [eraseKey, find_none_of hs htr hno]
  · intro hcv
    obtain ⟨A0, w0, B0, hl0, hA0, hwk, hkw, hB0, hfind⟩ :=
      find_some hs htr (containsEquiv_exists hcv)
    have hek : eraseKey cmp st k = ((erasePos cmp st (some w0.1)).1, 1) := by
      simp [eraseKey, hfind]
    have hw0mem : w0 ∈ st.elems := by rw [hl0]; simp
    obtain ⟨A, w, B2, hl, hA, hw1, hw2, hB2, hrun⟩ :=
      erase_hit hs htr ⟨w0, hw0mem, hirr w0.1, hirr w0.1⟩
    have hweq : cmp w.1 k = false ∧ cmp k w.1 = false :=
      het w.1 w0.1 k hw1 hw2 hwk hkw
    have hlen : st.size_ = A.length + (B2.length + 1) := by
      rw [hsz, hl]; simp
    have hsorted2 : (A ++ B2).Pairwise (fun e f : Entry α => cmp e.1 f.1 = true) := by
      have hsl : (A ++ w :: B2).Pairwise (fun e f : Entry α => cmp e.1 f.1 = true) :=
        hl ▸ hs
      obtain ⟨hPA, hPB, hcross⟩ := List.pairwise_append.mp hsl
      obtain ⟨-, hPB2⟩ := List.pairwise_cons.mp hPB
      refine List.pairwise_append.mpr ⟨hPA, hPB2, ?_⟩
      intro a ha b hb
      exact hcross a ha b (List.mem_cons_of_mem _ hb)
    have hst2 : (erasePos cmp st (some w0.1)).1
        = ⟨A ++ B2, shrinkLevel (A ++ B2) st.level, st.size_ - 1⟩ := by
      rw [hrun]
    have hno2 : containsEquiv cmp
        (⟨A ++ B2, shrinkLevel (A ++ B2) st.level, st.size_ - 1⟩ : jump_list α) k
          = false := by
      simp only [containsEquiv, List.any_eq_false]
      intro e he
      simp only [Bool.and_eq_true, Bool.not_eq_true']
      intro hcon
      obtain ⟨he1, he2⟩ := hcon
      have heqw : cmp e.1 w.1 = false ∧ cmp w.1 e.1 = false := by
        have hkwsym : cmp k w.1 = false := hweq.2
        have hwksym : cmp w.1 k = false := hweq.1
        exact het e.1 k w.1 he1 he2 hkwsym hwksym
      have hsl : (A ++ w :: B2).Pairwise (fun e f : Entry α => cmp e.1 f.1 = true) :=
        hl ▸ hs
      obtain ⟨-, hPB, hcross⟩ := List.pairwise_append.mp hsl
      obtain ⟨hwAll, -⟩ := List.pairwise_cons.mp hPB
      rcases List.mem_append.mp he with hain | hbin
      · have : cmp e.1 w.1 = true := hcross e hain w (by simp)
        simp [heqw.1] at this
      · have : cmp w.1 e.1 = true := hwAll e hbin
        simp [heqw.2] at this
    have hfind2 : find cmp (eraseKey cmp st k).1 k = none := by
      rw [hek, hst2]
      exact find_none_of hsorted2 htr hno2
    refine ⟨by rw [hek], ?_, hfind2, A, w, B2, hl, hweq.1, hweq.2, ?_⟩
    · rw [hek, hst2]
      show st.size_ - 1 + 1 = st.size_
      omega
    · rw [hek, hst2]

/-- C5 witness: on the container {1,2,3}, erasing key 2 removes it (find
then misses, size drops) and erasing key 42 returns 0 unchanged. -/
theorem C5_erase_by_key_witness :
    ((eraseKey cmpInt sample123 2).2 = 0 ∨ (eraseKey cmpInt sample123 2).2 = 1) ∧
    (containsEquiv cmpInt sample123 2 = false → eraseKey cmpInt sample123 2 = (sample123, 0)) ∧
    (containsEquiv cmpInt sample123 2 = true →
      (eraseKey cmpInt sample123 2).2 = 1 ∧
      (eraseKey cmpInt sample123 2).1.size_ + 1 = sample123.size_ ∧
      find cmpInt (eraseKey cmpInt sample123 2).1 2 = none ∧
      ∃ A w B2, sample123.elems = A ++ w :: B2 ∧
        cmpInt w.1 2 = false ∧ cmpInt 2 w.1 = false ∧
        (eraseKey cmpInt sample123 2).1.elems = A ++ B2) :=
  C5_erase_by_key cmpInt sample123 2 ⟨by decide, by decide⟩ cmpInt_trans
    cmpInt_irrefl cmpInt_equivTrans

/-- C6: evaluation of insert at the failing input of the all-or-nothing
contract.  Inserting into an empty container when randomLevel() samples 1
and node construction fails does signal the failure (no result), releases
everything (chain still empty, size still 0), but the `level` field was
raised to 1 before the allocation and is not rolled back: the container is
left with level 1 while header.forward[1] is null and no node occupies
level 1, so `level` is no longer the smallest value with that property and
invariant 3 of spec section 3 is violated. -/
theorem C6_alloc_failure_breaks_level_minimality :
    (insert cmpInt (emptyJL Int) 5 oneDraw false).2 = none ∧
    (insert cmpInt (emptyJL Int) 5 oneDraw false).1.elems = [] ∧
    (insert cmpInt (emptyJL Int) 5 oneDraw false).1.size_ = 0 ∧
    (insert cmpInt (emptyJL Int) 5 oneDraw false).1.level = 1 ∧
    levelMinimal (insert cmpInt (emptyJL Int) 5 oneDraw false).1 = false := by
  decide

/-- C7: equal_range semantics.  When an element comparator-equivalent to the
key is stored, the pair brackets exactly that element: the lower cursor
references it and the upper cursor references its immediate successor in
iteration order (end() when it is last); when no equivalent element is
stored both cursors are end(), also when elements ordered after the key
exist. -/
theorem C7_equal_range {α : Type} (cmp : α → α → Bool)
    (st : jump_list α) (k : α)
    (hs : Sorted cmp st) (htr : CmpTrans cmp) (hirr : CmpIrrefl cmp) :
    (containsEquiv cmp st k = false → equal_range cmp st k = (none, none)) ∧
    (containsEquiv cmp st k = true →
      ∃ A w B2, st.elems = A ++ w :: B2 ∧
        cmp w.1 k = false ∧ cmp k w.1 = false ∧
        equal_range cmp st k = (some w.1, B2.head?.map (fun f => f.1))) := by
  constructor
  · intro hno
    simp [equal_range, find_none_of hs htr hno]
  · intro hcv
    obtain ⟨A0, w, B0, hl0, hA0, h1, h2, hB0, hfind⟩ :=
      find_some hs htr (containsEquiv_exists hcv)
    have hwmem : w ∈ st.elems := by rw [hl0]; simp
    obtain ⟨A, B2, hl, hnext⟩ := iterNext_at hs htr hirr hwmem
    refine ⟨A, w, B2, hl, h1, h2, ?_⟩
    simp [equal_range, hfind, hnext]

/-- C7 witness: equal_range on {1,3,5,7,9} at the absent key 42 yields two
end cursors, and at the present key 5 brackets exactly the element 5. -/
theorem C7_equal_range_witness :
    (containsEquiv cmpInt sampleOdd 5 = false →
      equal_range cmpInt sampleOdd 5 = (none, none)) ∧
    (containsEquiv cmpInt sampleOdd 5 = true →
      ∃ A w B2, sampleOdd.elems = A ++ w :: B2 ∧
        cmpInt w.1 5 = false ∧ cmpInt 5 w.1 = false ∧
        equal_range cmpInt sampleOdd 5 = (some w.1, B2.head?.map (fun f => f.1))) :=
  C7_equal_range cmpInt sampleOdd 5 (by decide) cmpInt_trans cmpInt_irrefl

/-- C8 counterexample: operator== is element equality, not
comparator-equivalence.  Under the absolute-value comparator the containers
{1} and {-1} have equal size and pairwise comparator-equivalent elements in
iteration order, yet operator== returns false, so the claimed equivalence
fails. -/
theorem C8_eq_is_not_comparator_equivalence :
    toSeq sAbsPos = [1] ∧ toSeq sAbsNeg = [-1] ∧
    sAbsPos.size_ = sAbsNeg.size_ ∧
    cmpAbs 1 (-1) = false ∧ cmpAbs (-1) 1 = false ∧
    jlEq (fun a b : Int => a == b) sAbsPos sAbsNeg = false := by
  decide

/-- C8 (amended): operator== returns true iff the containers have the same
size and their elements are pairwise equal under the element equality in
iteration order, and operator< decides the lexicographic order of the
iteration sequences under the element order; concretely {1,2,3} < {1,2,4}
and {1,2,3} < {1,2,3,4}. -/
theorem C8_container_comparison {α : Type} (beq lt : α → α → Bool)
    (s1 s2 : jump_list α)
    (h1 : s1.size_ = (toSeq s1).length) (h2 : s2.size_ = (toSeq s2).length)
    (hirr : ∀ a, lt a a = false)
    (htot : ∀ a b, lt a b = false → lt b a = false → a = b) :
    (jlEq beq s1 s2 = true ↔
      s1.size_ = s2.size_ ∧
        List.Forall₂ (fun a b => beq a b = true) (toSeq s1) (toSeq s2)) ∧
    (jlLt lt s1 s2 = true ↔
      List.Lex (fun a b => lt a b = true) (toSeq s1) (toSeq s2)) ∧
    jlLt cmpInt sample123 sample124 = true ∧
    jlLt cmpInt sample123 sample1234 = true := by
  refine ⟨?_, lexCompare_iff_lex hirr htot _ _, by decide, by decide⟩
  constructor
  · intro h
    have hh : s1.size_ = s2.size_ ∧ stdEqual beq (toSeq s1) (toSeq s2) = true := by
      simpa [jlEq] using h
    have hlen : (toSeq s1).length = (toSeq s2).length :=
      (h1.symm).trans (hh.1.trans h2)
    exact ⟨hh.1, (stdEqual_iff_forall2 hlen).mp hh.2⟩
  · intro h
    obtain ⟨hsz, hf⟩ := h
    have hlen : (toSeq s1).length = (toSeq s2).length := hf.length_eq
    simp [jlEq, hsz, (stdEqual_iff_forall2 hlen).mpr hf]

/-- C8 amended witness: the characterization instantiated on the containers
{1,2,3} and {1,2,4} over the integer order and equality. -/
theorem C8_container_comparison_witness :
    (jlEq (fun a b : Int => a == b) sample123 sample124 = true ↔
      sample123.size_ = sample124.size_ ∧
        List.Forall₂ (fun a b : Int => (a == b) = true)
          (toSeq sample123) (toSeq sample124)) ∧
    (jlLt cmpInt sample123 sample124 = true ↔
      List.Lex (fun a b => cmpInt a b = true) (toSeq sample123) (toSeq sample124)) ∧
    jlLt cmpInt sample123 sample124 = true ∧
    jlLt cmpInt sample123 sample1234 = true :=
  C8_container_comparison (fun a b : Int => a == b) cmpInt sample123 sample124
    (by decide) (by decide) cmpInt_irrefl cmpInt_total

/-- C9: randomLevel terminates on every draw stream (it is a total function
of the stream) and returns an integer in [0, MAX_LEVEL] with MAX_LEVEL = 32,
computed by starting at 0 and incrementing while a draw succeeds, stopping
at the first failed draw or upon reaching MAX_LEVEL: every index below the
result drew a success, and the result is MAX_LEVEL or sits on a failed
draw. -/
theorem C9_randomLevel_contract (draws : Nat → Bool) :
    MAX_LEVEL = 32 ∧
    randomLevel draws ≤ MAX_LEVEL ∧
    (List.range (randomLevel draws)).all draws = true ∧
    (randomLevel draws = MAX_LEVEL ∨ draws (randomLevel draws) = false) := by
  obtain ⟨h0, h1, h2, h3⟩ := randomLevelAux_spec draws MAX_LEVEL 0 (Nat.zero_add _)
  refine ⟨rfl, h1, ?_, h3⟩
  rw [List.all_eq_true]
  intro x hx
  exact h2 x (Nat.zero_le x) (List.mem_range.mp hx)

/-- C10: the range overload erase(it, it) with equal cursors runs zero
iterations: the container is unchanged and the returned iterator is the
freshly initialized end(), whether or not the cursor references a stored
element. -/
theorem C10_empty_range_erase {α : Type} [DecidableEq α] (cmp : α → α → Bool)
    (st : jump_list α) (it : Option α) :
    eraseRange cmp st it it = (st, none) := by
  show eraseRangeAux cmp (st.size_ + 1) st it it none = (st, none)
  simp [eraseRangeAux]

end JumpListSpec
